import Mathlib

/-!
Verification development for the `hera_cal` I/O layer (`HERAData` / `HERACal`
and `DataContainer`), as described by the repository's specification and
exercised by `src/scripts/notebooks/io_example.ipynb`.

The repository ships only the demonstration notebook; the `hera_cal.io`
module itself (DataContainer, HERAData, HERACal) is not part of the source
tree.  Every definition below that embeds one of those missing operations is
therefore modelled from the specification text and carries a doc comment
saying so.
-/

namespace HeraCal

/-- Complex number with integer components, standing in for the complex
visibility samples.  Only the conjugation structure matters for the
properties verified here. -/
structure Cplx where
  re : Int
  im : Int
deriving DecidableEq

/-- Complex conjugation. -/
def Cplx.conj (z : Cplx) : Cplx := ⟨z.re, -z.im⟩

/-- Error kinds surfaced by the I/O layer, as enumerated by the spec. -/
inductive IOErr where
  | KeyNotFound
  | ShapeMismatch
  | UnsupportedSelector
  | MetadataUnavailable
  | KeyNotInSubset
  | SubsetUndefined
  | RegionOutOfBounds
  | FileExists
  | BackendWriteError
  | IncompleteUpdate
  | NotSupported
deriving DecidableEq

instance {ε α : Type} [DecidableEq ε] [DecidableEq α] : DecidableEq (Except ε α)
  | .error a, .error b =>
    if h : a = b then isTrue (congrArg Except.error h)
    else isFalse fun he => h (Except.error.inj he)
  | .error _, .ok _ => isFalse Except.noConfusion
  | .ok _, .error _ => isFalse Except.noConfusion
  | .ok a, .ok b =>
    if h : a = b then isTrue (congrArg Except.ok h)
    else isFalse fun he => h (Except.ok.inj he)

/-- Structural worker for `chunkList`: `fuel` bounds the number of chunks
still to be produced (it starts at the axis length, which suffices whenever
the group size is positive). -/
def chunkGo {α : Type} (g : Nat) : Nat → List α → List (List α)
  | _, [] => []
  | 0, _ => []
  | fuel + 1, xs => xs.take g :: chunkGo g fuel (xs.drop g)

/-- Modelled from the spec: the chunk computation shared by the three
iteration engines (`iterate_over_freqs` / `iterate_over_bls` /
`iterate_over_times`), whose implementation in `hera_cal.io` is not in the
source tree.  Splits an axis into consecutive groups of `g` elements, the
last group possibly shorter ("ragged last chunk" policy, never padded),
in ascending axis order. -/
def chunkList {α : Type} (g : Nat) (xs : List α) : List (List α) :=
  if g = 0 then [] else chunkGo g xs.length xs

theorem chunkGo_nil {α : Type} (g fuel : Nat) :
    chunkGo g fuel ([] : List α) = [] := by
  cases fuel <;> rfl

/-- The worker does not depend on the exact fuel, as long as it is
sufficient. -/
theorem chunkGo_congr {α : Type} {g : Nat} (hg : 0 < g) :
    ∀ (f1 f2 : Nat) (xs : List α), xs.length ≤ f1 → xs.length ≤ f2 →
      chunkGo g f1 xs = chunkGo g f2 xs := by
  intro f1
  induction f1 with
  | zero =>
    intro f2 xs h1 _
    have hx : xs = [] := by
      cases xs with
      | nil => rfl
      | cons a t => simp at h1
    subst hx
    rw [chunkGo_nil, chunkGo_nil]
  | succ n ih =>
    intro f2 xs h1 h2
    cases xs with
    | nil => rw [chunkGo_nil, chunkGo_nil]
    | cons a t =>
      have hf2 : ∃ m, f2 = m + 1 := by
        cases f2 with
        | zero => simp at h2
        | succ m => exact ⟨m, rfl⟩
      obtain ⟨m, rfl⟩ := hf2
      show (a :: t).take g :: chunkGo g n ((a :: t).drop g)
        = (a :: t).take g :: chunkGo g m ((a :: t).drop g)
      have hd : ((a :: t).drop g).length = t.length + 1 - g :=
        List.length_drop g (a :: t)
      have h1' : ((a :: t).drop g).length ≤ n := by
        simp only [List.length_cons] at h1
        omega
      have h2' : ((a :: t).drop g).length ≤ m := by
        simp only [List.length_cons] at h2
        omega
      exact congrArg _ (ih m ((a :: t).drop g) h1' h2')

theorem chunkList_nil {α : Type} (g : Nat) : chunkList g ([] : List α) = [] := by
  unfold chunkList
  split <;> rfl

theorem chunkList_pos {α : Type} {g : Nat} {xs : List α} (hg : 0 < g)
    (hxs : xs ≠ []) :
    chunkList g xs = xs.take g :: chunkList g (xs.drop g) := by
  obtain ⟨a, t, rfl⟩ := List.exists_cons_of_ne_nil hxs
  unfold chunkList
  rw [if_neg (by omega), if_neg (by omega)]
  show (a :: t).take g :: chunkGo g t.length ((a :: t).drop g) = _
  have hd : ((a :: t).drop g).length = t.length + 1 - g :=
    List.length_drop g (a :: t)
  rw [chunkGo_congr hg t.length ((a :: t).drop g).length ((a :: t).drop g)
    (by omega) le_rfl]

/-- Ceiling division `(L + g - 1) / g` equals 1 on `1 ≤ L ≤ g`. -/
theorem ceilDiv_of_le {g L : Nat} (h1 : 1 ≤ L) (h2 : L ≤ g) :
    (L + g - 1) / g = 1 := by
  apply Nat.div_eq_of_lt_le <;> omega

/-- Ceiling division `(L + g - 1) / g` steps by one when `g < L`. -/
theorem ceilDiv_of_gt {g L : Nat} (hg : 0 < g) (h : g < L) :
    (L + g - 1) / g = (L - g + g - 1) / g + 1 := by
  have e1 : L + g - 1 = (L - 1) + g := by omega
  have e2 : L - g + g - 1 = L - 1 := by omega
  rw [e1, e2, Nat.add_div_right _ hg]

/-- Concatenating the chunks reconstructs the axis in original order. -/
theorem chunkList_flatten {α : Type} (g : Nat) (hg : 0 < g) (xs : List α) :
    (chunkList g xs).flatten = xs := by
  by_cases hxs : xs = []
  · subst hxs; simp [chunkList_nil]
  · have hlen : 0 < xs.length := List.length_pos.mpr hxs
    have hdrop : (xs.drop g).length = xs.length - g := List.length_drop g xs
    rw [chunkList_pos hg hxs, List.flatten_cons,
      chunkList_flatten g hg (xs.drop g)]
    exact List.take_append_drop g xs
termination_by xs.length
decreasing_by omega

/-- The number of chunks is `⌈L / g⌉ = (L + g - 1) / g`. -/
theorem chunkList_length {α : Type} (g : Nat) (hg : 0 < g) (xs : List α) :
    (chunkList g xs).length = (xs.length + g - 1) / g := by
  by_cases hxs : xs = []
  · subst hxs
    simp only [chunkList_nil, List.length_nil]
    exact (Nat.div_eq_of_lt (by omega)).symm
  · have hlen : 0 < xs.length := List.length_pos.mpr hxs
    have hdrop : (xs.drop g).length = xs.length - g := List.length_drop g xs
    rw [chunkList_pos hg hxs, List.length_cons,
      chunkList_length g hg (xs.drop g), hdrop]
    rcases Nat.lt_or_ge g xs.length with hlt | hge
    · rw [ceilDiv_of_gt hg hlt]
    · have e0 : xs.length - g = 0 := by omega
      rw [e0, ceilDiv_of_le (by omega) hge]
      simp only [Nat.zero_add]
      rw [Nat.div_eq_of_lt (by omega)]
termination_by xs.length
decreasing_by omega

/-- Every chunk except possibly the last has exactly `g` elements. -/
theorem chunkList_dropLast_length {α : Type} (g : Nat) (hg : 0 < g)
    (xs : List α) : ∀ c ∈ (chunkList g xs).dropLast, c.length = g := by
  by_cases hxs : xs = []
  · subst hxs; simp [chunkList_nil]
  · rw [chunkList_pos hg hxs]
    by_cases hrest : chunkList g (xs.drop g) = []
    · rw [hrest]
      simp
    · rw [List.dropLast_cons_of_ne_nil hrest]
      intro c hc
      have hlen : 0 < xs.length := List.length_pos.mpr hxs
      have hdrop : (xs.drop g).length = xs.length - g := List.length_drop g xs
      rcases List.mem_cons.mp hc with hhd | htl
      · subst hhd
        have hne : xs.drop g ≠ [] := by
          intro he
          rw [he, chunkList_nil] at hrest
          exact hrest rfl
        have hgsz : g < xs.length := by
          have := List.length_pos.mpr hne
          omega
        rw [List.length_take]
        omega
      · exact chunkList_dropLast_length g hg (xs.drop g) c htl
termination_by xs.length
decreasing_by
  have hdrop : (xs.drop g).length = xs.length - g := List.length_drop g xs
  omega

/-- The last chunk has exactly `L - g * (⌈L / g⌉ - 1)` elements. -/
theorem chunkList_getLast_length {α : Type} (g : Nat) (hg : 0 < g)
    (xs : List α) (c : List α) (hc : (chunkList g xs).getLast? = some c) :
    c.length = xs.length - g * ((xs.length + g - 1) / g - 1) := by
  by_cases hxs : xs = []
  · subst hxs; rw [chunkList_nil] at hc; simp at hc
  · rw [chunkList_pos hg hxs] at hc
    have hlen : 0 < xs.length := List.length_pos.mpr hxs
    have hdrop : (xs.drop g).length = xs.length - g := List.length_drop g xs
    by_cases hrest : chunkList g (xs.drop g) = []
    · rw [hrest, List.getLast?_singleton] at hc
      have hcase : xs.drop g = [] := by
        by_contra hne
        rw [chunkList_pos hg hne] at hrest
        exact List.cons_ne_nil _ _ hrest
      have hge : xs.length ≤ g := by
        have := congrArg List.length hcase
        simp only [hdrop, List.length_nil] at this
        omega
      rw [ceilDiv_of_le (by omega) hge]
      have hcx : c = xs.take g := by
        injection hc with h1
        exact h1.symm
      subst hcx
      rw [List.length_take]
      omega
    · obtain ⟨b, t, hbt⟩ := List.exists_cons_of_ne_nil hrest
      rw [hbt, List.getLast?_cons_cons] at hc
      rw [← hbt] at hc
      have hne : xs.drop g ≠ [] := by
        intro he
        rw [he, chunkList_nil] at hrest
        exact hrest rfl
      have hgsz : g < xs.length := by
        have := List.length_pos.mpr hne
        omega
      have hrec := chunkList_getLast_length g hg (xs.drop g) c hc
      rw [hdrop] at hrec
      have e2 : xs.length - g + g - 1 = xs.length - 1 := by omega
      rw [e2] at hrec
      rw [ceilDiv_of_gt hg hgsz, e2]
      have hq1 : 1 ≤ (xs.length - 1) / g :=
        (Nat.one_le_div_iff hg).mpr (by omega)
      have hq2 : g * ((xs.length - 1) / g) ≤ xs.length - 1 := Nat.mul_div_le _ g
      obtain ⟨q', hq'⟩ : ∃ q', (xs.length - 1) / g = q' + 1 :=
        ⟨(xs.length - 1) / g - 1, by omega⟩
      rw [hq'] at hrec hq2 ⊢
      simp only [Nat.add_sub_cancel] at hrec ⊢
      have e5 : g * (q' + 1) = g * q' + g := by ring
      rw [e5] at hq2
      rw [hrec, e5]
      omega
termination_by xs.length
decreasing_by
  have hdrop : (xs.drop g).length = xs.length - g := List.length_drop g xs
  omega

/-! ### The keyed container (`DataContainer`) -/

/-- Baseline-polarization key: `(antenna, antenna, polarization string)`. -/
abbrev BLKey := Nat × Nat × String

/-- Waterfall of complex visibilities, `Nint × Nfreq`. -/
abbrev Waterfall := List (List Cplx)

/-- Elementwise complex conjugation of a waterfall. -/
def conjWf (w : Waterfall) : Waterfall := w.map (fun row => row.map Cplx.conj)

/-- Case normalization of a polarization string (the spec makes polarization
strings case-insensitive). -/
def normPol (s : String) : String := ⟨s.data.map Char.toLower⟩

/-- Normalized form of a key: antenna order kept, polarization lowercased. -/
def normKey (k : BLKey) : BLKey := (k.1, k.2.1, normPol k.2.2)

/-- Conjugate-order form of a key: antennas swapped, polarization
lowercased. -/
def revKey (k : BLKey) : BLKey := (k.2.1, k.1, normPol k.2.2)

/-- Association-list lookup by exact key. -/
def assocFind {α : Type} : List (BLKey × α) → BLKey → Option α
  | [], _ => none
  | (k', v) :: rest, k => if k' = k then some v else assocFind rest k

/-- Modelled from the spec: the `DataContainer` / `KeyedContainer`
abstraction of `hera_cal.io`, which is not in the source tree.  It maps
baseline keys to waterfalls and carries the read-only axis metadata
attributes (`freqs`, `times`) shared by the sibling containers of one
read. -/
structure KeyedContainer (α : Type) where
  entries : List (BLKey × List (List α))
  freqs : List Nat
  times : List Nat
deriving DecidableEq

/-- Keys of a container, in insertion order. -/
def contKeys {α : Type} (c : KeyedContainer α) : List BLKey :=
  c.entries.map Prod.fst

/-- Shape record of a container: the per-entry list of row lengths. -/
def contShapes {α : Type} (c : KeyedContainer α) : List (Nat × List Nat) :=
  c.entries.map (fun e => (e.snd.length, e.snd.map List.length))

/-- Modelled from the spec: `get` on a complex-valued container.  The key is
case-normalized; a direct hit returns the stored waterfall; otherwise, if the
conjugate-order key is stored, the complex conjugate of the stored waterfall
is returned (a fresh array); otherwise the lookup fails with `KeyNotFound`. -/
def KeyedContainer.get (c : KeyedContainer Cplx) (k : BLKey) :
    Except IOErr Waterfall :=
  match assocFind c.entries (normKey k) with
  | some w => .ok w
  | none =>
      match assocFind c.entries (revKey k) with
      | some w => .ok (conjWf w)
      | none => .error .KeyNotFound

/-! ### The dataset file model and the partial-read engine (`HERAData`) -/

/-- Modelled from the spec: the physical visibility file behind a
`DatasetHandle` — time axis of `nt` integrations, frequency axis of `nf`
channels, the stored baseline keys, and the per-key payload arrays the
format backend can address by `(key, time index, channel index)`. -/
structure VisFile where
  nt : Nat
  nf : Nat
  timeVal : Nat → Nat
  freqVal : Nat → Nat
  bls : List BLKey
  vis : BLKey → Nat → Nat → Cplx
  flag : BLKey → Nat → Nat → Bool
  nsamp : BLKey → Nat → Nat → Nat

/-- The triple of containers produced by one `HERAData.read` call. -/
structure ReadResult where
  data : KeyedContainer Cplx
  flags : KeyedContainer Bool
  nsamples : KeyedContainer Nat
deriving DecidableEq

/-- Modelled from the spec: `HERAData.read` with a selector — a baseline
list, a time-index subset and a channel-index subset.  Produces the three
sibling containers, restricted to the selected axes, with their `freqs` and
`times` metadata attributes restricted to the same axes. -/
def readSel (f : VisFile) (bls : List BLKey) (tIdx fIdx : List Nat) :
    ReadResult where
  data := ⟨bls.map (fun k => (k, tIdx.map (fun t => fIdx.map (fun c => f.vis k t c)))),
    fIdx.map f.freqVal, tIdx.map f.timeVal⟩
  flags := ⟨bls.map (fun k => (k, tIdx.map (fun t => fIdx.map (fun c => f.flag k t c)))),
    fIdx.map f.freqVal, tIdx.map f.timeVal⟩
  nsamples := ⟨bls.map (fun k => (k, tIdx.map (fun t => fIdx.map (fun c => f.nsamp k t c)))),
    fIdx.map f.freqVal, tIdx.map f.timeVal⟩

/-- Whole-file frequency axis. -/
def fullFreqs (f : VisFile) : List Nat := (List.range f.nf).map f.freqVal

/-- Whole-file time axis. -/
def fullTimes (f : VisFile) : List Nat := (List.range f.nt).map f.timeVal

/-- Modelled from the spec: `HERAData.iterate_over_freqs (Nchans := g)` —
one partial read per frequency chunk, ascending. -/
def iterate_over_freqs (f : VisFile) (g : Nat) : List ReadResult :=
  (chunkList g (List.range f.nf)).map
    (fun ch => readSel f f.bls (List.range f.nt) ch)

/-- Modelled from the spec: `HERAData.iterate_over_times` — one partial
read per time chunk, ascending. -/
def iterate_over_times (f : VisFile) (g : Nat) : List ReadResult :=
  (chunkList g (List.range f.nt)).map
    (fun ch => readSel f f.bls ch (List.range f.nf))

/-- Modelled from the spec: `HERAData.iterate_over_bls (Nbls := g)` — one
partial read per baseline group, in baseline-list order. -/
def iterate_over_bls (f : VisFile) (g : Nat) : List ReadResult :=
  (chunkList g f.bls).map
    (fun bg => readSel f bg (List.range f.nt) (List.range f.nf))

/-- Chunking a mapped axis chunks the original axis and maps each chunk. -/
theorem chunkList_zero {α : Type} (xs : List α) : chunkList 0 xs = [] := by
  unfold chunkList
  rw [if_pos rfl]

theorem chunkList_map {α β : Type} (g : Nat) (h : α → β) (xs : List α) :
    chunkList g (xs.map h) = (chunkList g xs).map (List.map h) := by
  by_cases hg : g = 0
  · subst hg
    simp [chunkList_zero]
  · by_cases hxs : xs = []
    · subst hxs; simp [chunkList_nil]
    · have hxs' : xs.map h ≠ [] := by simp [hxs]
      rw [chunkList_pos (by omega) hxs', chunkList_pos (by omega) hxs,
        ← List.map_take, ← List.map_drop, chunkList_map g h (xs.drop g)]
      rfl
termination_by xs.length
decreasing_by
  have h1 : 0 < xs.length := List.length_pos.mpr hxs
  have h2 : (xs.drop g).length = xs.length - g := List.length_drop g xs
  omega

/-- The spec's chunked-iteration contract for group size `g` over `axis`:
`⌈L / g⌉` chunks, each of size `g` but the last, whose size is
`L - g * (⌈L / g⌉ - 1)`, concatenating back to the axis in original order
with no overlap, gap or padding. -/
def chunksSpec {α : Type} (g : Nat) (axis : List α) (cs : List (List α)) :
    Prop :=
  cs.length = (axis.length + g - 1) / g ∧
  (∀ c ∈ cs.dropLast, c.length = g) ∧
  (∀ c, cs.getLast? = some c →
    c.length = axis.length - g * ((axis.length + g - 1) / g - 1)) ∧
  cs.flatten = axis

/-- The chunk computation satisfies the chunked-iteration contract. -/
theorem chunkList_chunksSpec {α : Type} (g : Nat) (hg : 0 < g)
    (xs : List α) : chunksSpec g xs (chunkList g xs) :=
  ⟨chunkList_length g hg xs, chunkList_dropLast_length g hg xs,
    fun c hc => chunkList_getLast_length g hg xs c hc,
    chunkList_flatten g hg xs⟩

/-- Keys of a partial read are exactly the requested baseline list. -/
theorem contKeys_readSel (f : VisFile) (bg : List BLKey)
    (tIdx fIdx : List Nat) : contKeys (readSel f bg tIdx fIdx).data = bg := by
  simp only [contKeys, readSel, List.map_map]
  exact List.map_id' bg

/-- Declared file formats relevant to metadata introspection: the HDF5-based
format probes whole-file metadata at open time, the legacy sequential
format cannot. -/
inductive Filetype where
  | uvh5
  | miriad
deriving DecidableEq

/-- Modelled from the spec: a `DatasetHandle` opened with a declared file
format tag, on which the metadata accessors and engines dispatch. -/
structure HDOpen where
  filetype : Filetype
  file : VisFile

/-- Modelled from the spec: the `freqs` metadata accessor — whole-file
frequency axis for the HDF5-based format, the explicit unknown sentinel
(`none`) for the legacy sequential format (the notebook prints
`miriad hd.freqs: None`). -/
def HDOpen.freqs (h : HDOpen) : Option (List Nat) :=
  match h.filetype with
  | .uvh5 => some (fullFreqs h.file)
  | .miriad => none

/-- Modelled from the spec: the `times` metadata accessor, with the same
unknown sentinel for the legacy sequential format. -/
def HDOpen.times (h : HDOpen) : Option (List Nat) :=
  match h.filetype with
  | .uvh5 => some (fullTimes h.file)
  | .miriad => none

/-- Modelled from the spec: `iterate_over_bls` with an optional explicit
baseline list.  Without whole-file metadata and without an explicit list
the engine fails with `MetadataUnavailable`; with a caller-supplied list it
iterates exactly that list, with no dependency on whole-file
introspection. -/
def iterate_over_bls_sel (h : HDOpen) (g : Nat)
    (explicit : Option (List BLKey)) : Except IOErr (List ReadResult) :=
  match explicit with
  | some l => .ok ((chunkList g l).map
      (fun bg => readSel h.file bg (List.range h.file.nt)
        (List.range h.file.nf)))
  | none =>
      match h.filetype with
      | .uvh5 => .ok (iterate_over_bls h.file g)
      | .miriad => .error .MetadataUnavailable

/-- Concrete dataset used by witnesses: 3 integrations, 7 channels, the
notebook's three baselines in miniature. -/
def demoFile : VisFile where
  nt := 3
  nf := 7
  timeVal := fun t => 100 + t
  freqVal := fun c => 1000 + c
  bls := [(53, 53, "xx"), (53, 54, "xx"), (54, 54, "xx")]
  vis := fun _ t c => ⟨Int.ofNat t, Int.ofNat c⟩
  flag := fun _ _ _ => false
  nsamp := fun _ _ _ => 1

/-- C2: for every group size `g ≥ 1`, each of the three iteration engines
yields exactly `⌈L / g⌉` chunks of its governing axis in ascending order,
each of size `g` except the last, whose size is `L - g * (⌈L / g⌉ - 1)`,
and the yielded chunks concatenate back to the full axis in original order
with no overlap, gap or padding. -/
theorem C2_iteration_engines (f : VisFile) (g : Nat) (hg : 1 ≤ g) :
    chunksSpec g (fullFreqs f)
      ((iterate_over_freqs f g).map (fun r => r.data.freqs)) ∧
    chunksSpec g (fullTimes f)
      ((iterate_over_times f g).map (fun r => r.data.times)) ∧
    chunksSpec g f.bls
      ((iterate_over_bls f g).map (fun r => contKeys r.data)) := by
  refine ⟨?_, ?_, ?_⟩
  · have he : (iterate_over_freqs f g).map (fun r => r.data.freqs)
        = chunkList g (fullFreqs f) := by
      rw [iterate_over_freqs, List.map_map, fullFreqs, chunkList_map]
      rfl
    rw [he]
    exact chunkList_chunksSpec g hg _
  · have he : (iterate_over_times f g).map (fun r => r.data.times)
        = chunkList g (fullTimes f) := by
      rw [iterate_over_times, List.map_map, fullTimes, chunkList_map]
      rfl
    rw [he]
    exact chunkList_chunksSpec g hg _
  · have he : (iterate_over_bls f g).map (fun r => contKeys r.data)
        = chunkList g f.bls := by
      rw [iterate_over_bls, List.map_map]
      have hc : ((fun r => contKeys r.data) ∘
          fun bg => readSel f bg (List.range f.nt) (List.range f.nf))
          = fun bg => bg := by
        funext bg
        exact contKeys_readSel f bg _ _
      rw [hc]
      exact List.map_id' _
    rw [he]
    exact chunkList_chunksSpec g hg _

/-- C2 (witness): the three engines on the concrete miniature dataset with
group size 3 (axis lengths 7, 3 and 3). -/
theorem C2_iteration_engines_witness :
    1 ≤ 3 ∧
    (chunksSpec 3 (fullFreqs demoFile)
      ((iterate_over_freqs demoFile 3).map (fun r => r.data.freqs)) ∧
     chunksSpec 3 (fullTimes demoFile)
      ((iterate_over_times demoFile 3).map (fun r => r.data.times)) ∧
     chunksSpec 3 demoFile.bls
      ((iterate_over_bls demoFile 3).map (fun r => contKeys r.data))) :=
  ⟨by decide, C2_iteration_engines demoFile 3 (by decide)⟩

set_option maxRecDepth 100000 in
/-- Example scenario from the spec, computed concretely: 1024 frequency
channels iterated 300 at a time yield chunk sizes [300, 300, 300, 124]. -/
theorem chunk_sizes_1024_by_300 :
    (chunkList 300 (List.range 1024)).map List.length = [300, 300, 300, 124] := by
  decide

/-- C7: on a handle opened on the legacy sequential (miriad) format, the
metadata accessors return the explicit unknown sentinel `none`; an
iteration engine called without an explicit subset list fails with
`MetadataUnavailable`; the same engine called with a caller-supplied
explicit list succeeds and iterates exactly that list. -/
theorem C7_miriad_metadata (h : HDOpen) (g : Nat) (l : List BLKey)
    (hm : h.filetype = .miriad) (hg : 1 ≤ g) :
    h.freqs = none ∧
    h.times = none ∧
    iterate_over_bls_sel h g none = .error .MetadataUnavailable ∧
    (∃ rs, iterate_over_bls_sel h g (some l) = .ok rs ∧
      (rs.map (fun r => contKeys r.data)).flatten = l) := by
  refine ⟨?_, ?_, ?_, ?_⟩
  · rw [HDOpen.freqs, hm]
  · rw [HDOpen.times, hm]
  · rw [iterate_over_bls_sel, hm]
  · refine ⟨_, rfl, ?_⟩
    have he : ((chunkList g l).map
        (fun bg => readSel h.file bg (List.range h.file.nt)
          (List.range h.file.nf))).map (fun r => contKeys r.data)
        = chunkList g l := by
      rw [List.map_map]
      have hc : ((fun r => contKeys r.data) ∘
          fun bg => readSel h.file bg (List.range h.file.nt)
            (List.range h.file.nf)) = fun bg => bg := by
        funext bg
        exact contKeys_readSel h.file bg _ _
      rw [hc]
      exact List.map_id' _
    rw [he]
    exact chunkList_flatten g hg l

/-- C7 (witness): a miriad-format handle on the miniature dataset, iterated
over the notebook's explicit three-baseline list two at a time. -/
theorem C7_miriad_metadata_witness :
    (HDOpen.mk .miriad demoFile).filetype = .miriad ∧
    1 ≤ 2 ∧
    ((HDOpen.mk .miriad demoFile).freqs = none ∧
     (HDOpen.mk .miriad demoFile).times = none ∧
     iterate_over_bls_sel (HDOpen.mk .miriad demoFile) 2 none
       = .error .MetadataUnavailable ∧
     (∃ rs, iterate_over_bls_sel (HDOpen.mk .miriad demoFile) 2
        (some [(52, 52, "xx"), (52, 53, "xx"), (53, 53, "xx")]) = .ok rs ∧
       (rs.map (fun r => contKeys r.data)).flatten
         = [(52, 52, "xx"), (52, 53, "xx"), (53, 53, "xx")])) :=
  ⟨rfl, by decide,
    C7_miriad_metadata (HDOpen.mk .miriad demoFile) 2
      [(52, 52, "xx"), (52, 53, "xx"), (53, 53, "xx")] rfl (by decide)⟩

/-- Full-file waterfall for one key: all integrations by all channels. -/
def fullWf (f : VisFile) (k : BLKey) : Waterfall :=
  (List.range f.nt).map (fun t => (List.range f.nf).map (fun c => f.vis k t c))

/-- Modelled from the spec: `HERAData` opened on a list of files and
`read()` with no selector — for every key, the per-file arrays are
concatenated along the time axis (the notebook reads two 60-integration
files and obtains waterfalls of shape `(120, 1024)`). -/
def readFilesData (fs : List VisFile) (bls : List BLKey) :
    KeyedContainer Cplx where
  entries := bls.map (fun k => (k, (fs.map (fun f => fullWf f k)).flatten))
  freqs :=
    match fs with
    | [] => []
    | f :: _ => fullFreqs f
  times := (fs.map fullTimes).flatten

/-- Per-key shape lemma for one readSel entry list. -/
theorem entry_shape {α : Type} (bls : List BLKey) (tIdx fIdx : List Nat)
    (payload : BLKey → Nat → Nat → α) :
    ∀ e ∈ bls.map
      (fun k => (k, tIdx.map (fun t => fIdx.map (fun c => payload k t c)))),
      e.snd.length = tIdx.length ∧ ∀ row ∈ e.snd, row.length = fIdx.length := by
  intro e he
  obtain ⟨k, _, rfl⟩ := List.mem_map.mp he
  refine ⟨by simp, ?_⟩
  intro row hrow
  obtain ⟨t, _, rfl⟩ := List.mem_map.mp hrow
  simp

/-- C9: reading a handle opened on a list of files with no selector returns
containers whose waterfalls are the per-file arrays concatenated along the
time axis: every entry's first dimension is the sum of the per-file
integration counts, and its second dimension is the shared number of
frequency channels. -/
theorem C9_multifile_time_concat (fs : List VisFile) (bls : List BLKey)
    (nf : Nat) (hnf : ∀ f ∈ fs, f.nf = nf) :
    ∀ e ∈ (readFilesData fs bls).entries,
      e.snd.length = (fs.map (fun f => f.nt)).sum ∧
      ∀ row ∈ e.snd, row.length = nf := by
  intro e he
  obtain ⟨k, _, rfl⟩ := List.mem_map.mp he
  constructor
  · show ((fs.map (fun f => fullWf f k)).flatten).length = _
    rw [List.length_flatten, List.map_map]
    refine congrArg List.sum (List.map_congr_left ?_)
    intro f _
    show (fullWf f k).length = f.nt
    simp [fullWf]
  · intro row hrow
    obtain ⟨w, hw, hrw⟩ := List.mem_flatten.mp hrow
    obtain ⟨f, hf, rfl⟩ := List.mem_map.mp hw
    obtain ⟨t, _, rfl⟩ := List.mem_map.mp hrw
    simp [hnf f hf]

/-- C9 (witness): two miniature files of 3 and 2 integrations over 7 shared
channels concatenate to 5-row waterfalls of width 7. -/
theorem C9_multifile_time_concat_witness :
    (∀ f ∈ [demoFile,
      VisFile.mk 2 7 (fun t => 200 + t) (fun c => 1000 + c)
        [(53, 53, "xx"), (53, 54, "xx"), (54, 54, "xx")]
        (fun _ t c => ⟨Int.ofNat (t + c), 1⟩) (fun _ _ _ => false)
        (fun _ _ _ => 2)], f.nf = 7) ∧
    (∀ e ∈ (readFilesData [demoFile,
      VisFile.mk 2 7 (fun t => 200 + t) (fun c => 1000 + c)
        [(53, 53, "xx"), (53, 54, "xx"), (54, 54, "xx")]
        (fun _ t c => ⟨Int.ofNat (t + c), 1⟩) (fun _ _ _ => false)
        (fun _ _ _ => 2)] [(53, 54, "xx")]).entries,
      e.snd.length = ([demoFile,
        VisFile.mk 2 7 (fun t => 200 + t) (fun c => 1000 + c)
          [(53, 53, "xx"), (53, 54, "xx"), (54, 54, "xx")]
          (fun _ t c => ⟨Int.ofNat (t + c), 1⟩) (fun _ _ _ => false)
          (fun _ _ _ => 2)].map (fun f => f.nt)).sum ∧
      ∀ row ∈ e.snd, row.length = 7) :=
  ⟨by decide,
    C9_multifile_time_concat _ [(53, 54, "xx")] 7 (by decide)⟩

/-- C10: every partial read restricted to `n_t` times and `n_f` channels
returns containers (data, flags, nsamples) whose waterfalls all have shape
exactly `(n_t, n_f)` and whose `freqs` / `times` metadata equal exactly the
selected sub-axes; in particular every container yielded by the frequency
iteration engine is the partial read of one chunk, so its `freqs`
attribute spans only the current chunk, not the whole file. -/
theorem C10_partial_read_extents (f : VisFile) (bls : List BLKey)
    (tIdx fIdx : List Nat) (g : Nat) (r : ReadResult)
    (hr : r ∈ iterate_over_freqs f g) :
    (∀ e ∈ (readSel f bls tIdx fIdx).data.entries,
      e.snd.length = tIdx.length ∧ ∀ row ∈ e.snd, row.length = fIdx.length) ∧
    (∀ e ∈ (readSel f bls tIdx fIdx).flags.entries,
      e.snd.length = tIdx.length ∧ ∀ row ∈ e.snd, row.length = fIdx.length) ∧
    (∀ e ∈ (readSel f bls tIdx fIdx).nsamples.entries,
      e.snd.length = tIdx.length ∧ ∀ row ∈ e.snd, row.length = fIdx.length) ∧
    (readSel f bls tIdx fIdx).data.freqs = fIdx.map f.freqVal ∧
    (readSel f bls tIdx fIdx).data.times = tIdx.map f.timeVal ∧
    ∃ ch ∈ chunkList g (List.range f.nf),
      r = readSel f f.bls (List.range f.nt) ch ∧
      r.data.freqs = ch.map f.freqVal := by
  refine ⟨entry_shape bls tIdx fIdx f.vis, entry_shape bls tIdx fIdx f.flag,
    entry_shape bls tIdx fIdx f.nsamp, rfl, rfl, ?_⟩
  obtain ⟨ch, hch, rfl⟩ := List.mem_map.mp hr
  exact ⟨ch, hch, rfl, rfl⟩

/-- C10 (witness): a two-time three-channel partial read of the miniature
dataset, and the first chunk yielded by the frequency engine with group
size 3. -/
theorem C10_partial_read_extents_witness :
    readSel demoFile demoFile.bls (List.range demoFile.nt) [0, 1, 2]
      ∈ iterate_over_freqs demoFile 3 ∧
    ((∀ e ∈ (readSel demoFile [(53, 54, "xx")] [0, 1] [2, 3, 4]).data.entries,
      e.snd.length = [0, 1].length ∧
        ∀ row ∈ e.snd, row.length = [2, 3, 4].length) ∧
     (∀ e ∈ (readSel demoFile [(53, 54, "xx")] [0, 1] [2, 3, 4]).flags.entries,
      e.snd.length = [0, 1].length ∧
        ∀ row ∈ e.snd, row.length = [2, 3, 4].length) ∧
     (∀ e ∈ (readSel demoFile [(53, 54, "xx")] [0, 1]
        [2, 3, 4]).nsamples.entries,
      e.snd.length = [0, 1].length ∧
        ∀ row ∈ e.snd, row.length = [2, 3, 4].length) ∧
     (readSel demoFile [(53, 54, "xx")] [0, 1] [2, 3, 4]).data.freqs
       = [2, 3, 4].map demoFile.freqVal ∧
     (readSel demoFile [(53, 54, "xx")] [0, 1] [2, 3, 4]).data.times
       = [0, 1].map demoFile.timeVal ∧
     ∃ ch ∈ chunkList 3 (List.range demoFile.nf),
       readSel demoFile demoFile.bls (List.range demoFile.nt) [0, 1, 2]
         = readSel demoFile demoFile.bls (List.range demoFile.nt) ch ∧
       (readSel demoFile demoFile.bls (List.range demoFile.nt)
         [0, 1, 2]).data.freqs = ch.map demoFile.freqVal) :=
  ⟨by decide,
    C10_partial_read_extents demoFile [(53, 54, "xx")] [0, 1] [2, 3, 4] 3
      (readSel demoFile demoFile.bls (List.range demoFile.nt) [0, 1, 2])
      (by decide)⟩

/-- C1 (counterexample): the claim quantifies over every key `(i, j, pol)`
held by a complex-valued container, and autocorrelation keys `(i, i, pol)`
are such keys (the notebook's container holds `(53, 53, 'xx')`).  For
`i = j` the reversed key is the stored key itself, so `get` returns the
stored waterfall unconjugated, and a stored waterfall with a nonzero
imaginary part refutes `get((j,i,pol)) = conj (get((i,j,pol)))`. -/
theorem C1_counterexample :
    ¬ (KeyedContainer.get ⟨[((1, 1, "xx"), [[⟨0, 1⟩]])], [], []⟩ (1, 1, "xx") =
       (KeyedContainer.get ⟨[((1, 1, "xx"), [[⟨0, 1⟩]])], [], []⟩
          (1, 1, "xx")).map conjWf) := by
  decide

/-- C1 (amended): for every complex-valued `KeyedContainer` holding an entry
under key `(i, j, pol)` with `i ≠ j` and nothing under the reversed key (the
spec stores only the canonical order), `get ((j, i, pol))` returns the
complex conjugate of `get ((i, j, pol))`, and both lookups are invariant
under every upper/lower-case variant of the polarization string. -/
theorem C1_conj_case_invariance (c : KeyedContainer Cplx) (i j : Nat)
    (pol pv : String) (w : List (List Cplx))
    (hij : i ≠ j)
    (hv : normPol pv = normPol pol)
    (hstore : assocFind c.entries (i, j, normPol pol) = some w)
    (hmiss : assocFind c.entries (j, i, normPol pol) = none) :
    c.get (j, i, pv) = (c.get (i, j, pv)).map conjWf ∧
    c.get (i, j, pv) = c.get (i, j, pol) ∧
    c.get (j, i, pv) = c.get (j, i, pol) := by
  have h1 : c.get (i, j, pv) = .ok w := by
    simp [KeyedContainer.get, normKey, hv, hstore]
  have h2 : c.get (j, i, pv) = .ok (conjWf w) := by
    simp [KeyedContainer.get, normKey, revKey, hv, hstore, hmiss]
  have h3 : c.get (i, j, pol) = .ok w := by
    simp [KeyedContainer.get, normKey, hstore]
  have h4 : c.get (j, i, pol) = .ok (conjWf w) := by
    simp [KeyedContainer.get, normKey, revKey, hstore, hmiss]
  rw [h1, h2, h3, h4]
  exact ⟨rfl, rfl, rfl⟩

/-- C1 (witness): the amended theorem applied to a concrete two-antenna
container, matching the notebook's `data[54, 53, 'XX']` demonstration. -/
theorem C1_conj_case_invariance_witness :
    (1 : Nat) ≠ 2 ∧
    normPol "XX" = normPol "xx" ∧
    assocFind [((1, 2, "xx"), [[(⟨3, 4⟩ : Cplx)]])] (1, 2, normPol "xx") =
      some [[⟨3, 4⟩]] ∧
    assocFind [((1, 2, "xx"), [[(⟨3, 4⟩ : Cplx)]])] (2, 1, normPol "xx") =
      none ∧
    (KeyedContainer.get ⟨[((1, 2, "xx"), [[⟨3, 4⟩]])], [], []⟩ (2, 1, "XX") =
      (KeyedContainer.get ⟨[((1, 2, "xx"), [[⟨3, 4⟩]])], [], []⟩
        (1, 2, "XX")).map conjWf ∧
     KeyedContainer.get ⟨[((1, 2, "xx"), [[⟨3, 4⟩]])], [], []⟩ (1, 2, "XX") =
      KeyedContainer.get ⟨[((1, 2, "xx"), [[⟨3, 4⟩]])], [], []⟩ (1, 2, "xx") ∧
     KeyedContainer.get ⟨[((1, 2, "xx"), [[⟨3, 4⟩]])], [], []⟩ (2, 1, "XX") =
      KeyedContainer.get ⟨[((1, 2, "xx"), [[⟨3, 4⟩]])], [], []⟩ (2, 1, "xx")) :=
  ⟨by decide, by decide, by decide, by decide,
    C1_conj_case_invariance ⟨[((1, 2, "xx"), [[⟨3, 4⟩]])], [], []⟩ 1 2
      "xx" "XX" [[⟨3, 4⟩]] (by decide) (by decide) (by decide) (by decide)⟩

/-! ### The stateful dataset handle -/

/-- The selector of a (partial) read: a baseline list, a time-index subset
and a channel-index subset. -/
structure Selector where
  bls : List BLKey
  tIdx : List Nat
  fIdx : List Nat
deriving DecidableEq

/-- Modelled from the spec: the stateful `DatasetHandle` bound to a source
file — it owns the internal buffer (the most recently read subset) and the
record of the last-read subset used to bound partial writes. -/
structure HDHandle where
  source : VisFile
  buffer : Option ReadResult
  lastSubset : Option Selector

/-- A freshly opened handle: no buffer, no recorded subset. -/
def freshHandle (f : VisFile) : HDHandle := ⟨f, none, none⟩

/-- Modelled from the spec: `read` performs the partial read and *replaces*
the handle's internal buffer and its recorded subset with the newly read
subset — it never accumulates with a prior read. -/
def HDHandle.read (h : HDHandle) (s : Selector) : HDHandle × ReadResult :=
  let r := readSel h.source s.bls s.tIdx s.fIdx
  ({ h with buffer := some r, lastSubset := some s }, r)

/-- A sequence of reads on a handle, in order. -/
def readSeq (h : HDHandle) (ss : List Selector) : HDHandle :=
  ss.foldl (fun h s => (h.read s).1) h

theorem readSeq_cons (h : HDHandle) (a : Selector) (tl : List Selector) :
    readSeq h (a :: tl) = readSeq ((h.read a).1) tl := rfl

/-- C4: after any nonempty sequence of reads, the handle's internal buffer
and its recorded subset are exactly those of the most recent read — every
read replaces them, and nothing from earlier reads survives. -/
theorem C4_read_replaces_buffer (h : HDHandle) (ss : List Selector)
    (s : Selector) (hlast : ss.getLast? = some s) :
    (readSeq h ss).buffer = some (readSel h.source s.bls s.tIdx s.fIdx) ∧
    (readSeq h ss).lastSubset = some s := by
  induction ss generalizing h with
  | nil => simp at hlast
  | cons a tl ih =>
    rw [readSeq_cons]
    cases tl with
    | nil =>
      rw [List.getLast?_singleton] at hlast
      injection hlast with has
      subst has
      exact ⟨rfl, rfl⟩
    | cons b tl2 =>
      rw [List.getLast?_cons_cons] at hlast
      exact ih ((h.read a).1) hlast

/-- C4 (witness): two successive partial reads on a fresh handle; the
buffer holds exactly the second read. -/
theorem C4_read_replaces_buffer_witness :
    ([Selector.mk [(53, 53, "xx")] [0, 1] [0, 1, 2],
      Selector.mk [(53, 54, "xx")] [0] [3, 4]].getLast?
        = some (Selector.mk [(53, 54, "xx")] [0] [3, 4])) ∧
    ((readSeq (freshHandle demoFile)
        [Selector.mk [(53, 53, "xx")] [0, 1] [0, 1, 2],
         Selector.mk [(53, 54, "xx")] [0] [3, 4]]).buffer
      = some (readSel (freshHandle demoFile).source [(53, 54, "xx")] [0]
          [3, 4]) ∧
     (readSeq (freshHandle demoFile)
        [Selector.mk [(53, 53, "xx")] [0, 1] [0, 1, 2],
         Selector.mk [(53, 54, "xx")] [0] [3, 4]]).lastSubset
      = some (Selector.mk [(53, 54, "xx")] [0] [3, 4])) :=
  ⟨by decide,
    C4_read_replaces_buffer (freshHandle demoFile)
      [Selector.mk [(53, 53, "xx")] [0, 1] [0, 1, 2],
       Selector.mk [(53, 54, "xx")] [0] [3, 4]]
      (Selector.mk [(53, 54, "xx")] [0] [3, 4]) (by decide)⟩

/-- The world visible to a caller: the files on disk (abstractly, the
container contents they serialize) and the open handle. -/
structure World where
  disk : List ReadResult
  handle : HDHandle

/-- A read step at world level: only the handle changes. -/
def World.read (w : World) (s : Selector) : World :=
  { w with handle := (w.handle.read s).1 }

/-- Modelled from the spec: `update(data, flags, nsamples)` — writes
caller-supplied container values back into the internal buffer at the
keys/shape recorded by the last read; keys not present in the last-read
subset are rejected with `KeyNotInSubset`, shape mismatches with
`ShapeMismatch`.  Pure in-memory operation; no disk I/O. -/
def HDHandle.update (h : HDHandle) (r : ReadResult) : Except IOErr HDHandle :=
  match h.buffer with
  | none => .error .KeyNotInSubset
  | some b =>
      if contKeys r.data = contKeys b.data ∧
          contKeys r.flags = contKeys b.flags ∧
          contKeys r.nsamples = contKeys b.nsamples then
        if contShapes r.data = contShapes b.data ∧
            contShapes r.flags = contShapes b.flags ∧
            contShapes r.nsamples = contShapes b.nsamples then
          .ok { h with buffer := some r }
        else .error .ShapeMismatch
      else .error .KeyNotInSubset

/-- An update step at world level: delegates to the handle. -/
def World.update (w : World) (r : ReadResult) : Except IOErr World :=
  (w.handle.update r).map (fun h => { w with handle := h })

/-- Modelled from the spec: `write` serializes the full internal buffer to
a new file on disk (the one world-level operation that mutates the disk). -/
def World.write_uvh5 (w : World) : World :=
  match w.handle.buffer with
  | none => w
  | some r => { w with disk := w.disk ++ [r] }

/-- C6: `update` is a pure in-memory operation — for every handle and every
valid containers matching the last-read keys and shapes, `update` succeeds,
the handle's buffer then holds exactly the values passed, and neither the
update nor a subsequent read changes any on-disk state. -/
theorem C6_update_pure_in_memory (w : World) (r b : ReadResult) (s : Selector)
    (hb : w.handle.buffer = some b)
    (hk : contKeys r.data = contKeys b.data ∧
      contKeys r.flags = contKeys b.flags ∧
      contKeys r.nsamples = contKeys b.nsamples)
    (hs : contShapes r.data = contShapes b.data ∧
      contShapes r.flags = contShapes b.flags ∧
      contShapes r.nsamples = contShapes b.nsamples) :
    World.update w r
      = .ok ⟨w.disk, { w.handle with buffer := some r }⟩ ∧
    ({ w.handle with buffer := some r } : HDHandle).buffer = some r ∧
    (World.read ⟨w.disk, { w.handle with buffer := some r }⟩ s).disk
      = w.disk := by
  refine ⟨?_, rfl, rfl⟩
  have hu : w.handle.update r = .ok { w.handle with buffer := some r } := by
    rw [HDHandle.update, hb]
    show (if contKeys r.data = contKeys b.data ∧
        contKeys r.flags = contKeys b.flags ∧
        contKeys r.nsamples = contKeys b.nsamples then
      if contShapes r.data = contShapes b.data ∧
          contShapes r.flags = contShapes b.flags ∧
          contShapes r.nsamples = contShapes b.nsamples then
        Except.ok { w.handle with buffer := some r }
      else Except.error IOErr.ShapeMismatch
    else Except.error IOErr.KeyNotInSubset) = _
    rw [if_pos hk, if_pos hs]
  rw [World.update, hu]
  rfl

/-- C6 (witness): a handle that has read one subset, updated with modified
values of the same keys and shapes. -/
theorem C6_update_pure_in_memory_witness :
    (World.mk [] ((freshHandle demoFile).read
        (Selector.mk [(53, 54, "xx")] [0] [1])).1).handle.buffer
      = some (readSel demoFile [(53, 54, "xx")] [0] [1]) ∧
    (contKeys (readSel demoFile [(53, 54, "xx")] [0] [2]).data
        = contKeys (readSel demoFile [(53, 54, "xx")] [0] [1]).data ∧
      contKeys (readSel demoFile [(53, 54, "xx")] [0] [2]).flags
        = contKeys (readSel demoFile [(53, 54, "xx")] [0] [1]).flags ∧
      contKeys (readSel demoFile [(53, 54, "xx")] [0] [2]).nsamples
        = contKeys (readSel demoFile [(53, 54, "xx")] [0] [1]).nsamples) ∧
    (contShapes (readSel demoFile [(53, 54, "xx")] [0] [2]).data
        = contShapes (readSel demoFile [(53, 54, "xx")] [0] [1]).data ∧
      contShapes (readSel demoFile [(53, 54, "xx")] [0] [2]).flags
        = contShapes (readSel demoFile [(53, 54, "xx")] [0] [1]).flags ∧
      contShapes (readSel demoFile [(53, 54, "xx")] [0] [2]).nsamples
        = contShapes (readSel demoFile [(53, 54, "xx")] [0] [1]).nsamples) ∧
    (World.update
        (World.mk [] ((freshHandle demoFile).read
          (Selector.mk [(53, 54, "xx")] [0] [1])).1)
        (readSel demoFile [(53, 54, "xx")] [0] [2])
      = .ok ⟨[], { ((freshHandle demoFile).read
          (Selector.mk [(53, 54, "xx")] [0] [1])).1 with
            buffer := some (readSel demoFile [(53, 54, "xx")] [0] [2]) }⟩ ∧
     ({ ((freshHandle demoFile).read
          (Selector.mk [(53, 54, "xx")] [0] [1])).1 with
            buffer := some (readSel demoFile [(53, 54, "xx")] [0] [2]) }
        : HDHandle).buffer
      = some (readSel demoFile [(53, 54, "xx")] [0] [2]) ∧
     (World.read ⟨[], { ((freshHandle demoFile).read
          (Selector.mk [(53, 54, "xx")] [0] [1])).1 with
            buffer := some (readSel demoFile [(53, 54, "xx")] [0] [2]) }⟩
        (Selector.mk [(53, 53, "xx")] [1] [0])).disk = []) :=
  ⟨by decide, by decide, by decide,
    C6_update_pure_in_memory
      (World.mk [] ((freshHandle demoFile).read
        (Selector.mk [(53, 54, "xx")] [0] [1])).1)
      (readSel demoFile [(53, 54, "xx")] [0] [2])
      (readSel demoFile [(53, 54, "xx")] [0] [1])
      (Selector.mk [(53, 53, "xx")] [1] [0])
      (by decide) (by decide) (by decide)⟩

/-! ### Partial writes into a preallocated destination -/

/-- Modelled from the spec: `allocate_output` — a freshly allocated,
correctly-shaped destination file of `n` axis cells, none written yet. -/
def allocate_output {α : Type} (n : Nat) : List (Option α) :=
  List.replicate n none

/-- Modelled from the spec: the backend's `write_full` — a single full
write of the source axis cells. -/
def write_full {α : Type} (cells : List α) : List (Option α) :=
  cells.map some

/-- Modelled from the spec: the backend's `write_region` — overwrites
exactly the cells `[start, start + chunk.length)` of the destination. -/
def writeRegion {α : Type} (dest : List (Option α)) (start : Nat)
    (chunk : List α) : List (Option α) :=
  dest.take start ++ chunk.map some ++ dest.drop (start + chunk.length)

/-- Modelled from the spec: `partial_write` given the recorded subset
mapped into the destination's global axis layout (`none` when no read has
recorded a subset yet).  Fails with `SubsetUndefined` before any read and
with `RegionOutOfBounds` when the recorded region does not exist in the
destination's axes; writes exactly the recorded region otherwise. -/
def partialWriteRegion {α : Type} (last : Option (Nat × List α))
    (dest : List (Option α)) : Except IOErr (List (Option α)) :=
  match last with
  | none => .error .SubsetUndefined
  | some (start, chunk) =>
      if start + chunk.length ≤ dest.length then
        .ok (writeRegion dest start chunk)
      else .error .RegionOutOfBounds

/-- The destination as observable after a `partial_write` call: unchanged
when the call failed. -/
def destAfter {α : Type} (last : Option (Nat × List α))
    (dest : List (Option α)) : List (Option α) :=
  match partialWriteRegion last dest with
  | .ok d => d
  | .error _ => dest

/-- One column of a waterfall (the values of channel `c` over time). -/
def colSlice (w : Waterfall) (c : Nat) : List Cplx :=
  w.map (fun row => row.getD c ⟨0, 0⟩)

/-- The frequency-axis cells held by one read result: for each read
channel, the per-key column block. -/
def columnsOf (r : ReadResult) : List (List (List Cplx)) :=
  (List.range r.data.freqs.length).map
    (fun c => r.data.entries.map (fun e => colSlice e.snd c))

/-- Modelled from the spec: the region recorded by the handle's most recent
read, mapped into the destination's frequency-axis layout — absent on a
fresh handle. -/
def recordedRegion (h : HDHandle) : Option (Nat × List (List (List Cplx))) :=
  match h.lastSubset, h.buffer with
  | some s, some r => some (s.fIdx.headD 0, columnsOf r)
  | _, _ => none

/-- Modelled from the spec: `HERAData.partial_write` — writes exactly the
region described by the handle's last-recorded read subset. -/
def HDHandle.partial_write (h : HDHandle)
    (dest : List (Option (List (List Cplx)))) :
    Except IOErr (List (Option (List (List Cplx)))) :=
  partialWriteRegion (recordedRegion h) dest

/-- C5: `partial_write` on a freshly opened handle (no read yet) fails with
`SubsetUndefined`, and a `partial_write` whose recorded subset does not fit
the destination's axes fails with `RegionOutOfBounds`; in both cases the
destination is left entirely unwritten. -/
theorem C5_partial_write_errors {α : Type} (f : VisFile)
    (dest : List (Option (List (List Cplx)))) (dest2 : List (Option α))
    (start : Nat) (chunk : List α)
    (hoob : dest2.length < start + chunk.length) :
    HDHandle.partial_write (freshHandle f) dest = .error .SubsetUndefined ∧
    destAfter (recordedRegion (freshHandle f)) dest = dest ∧
    partialWriteRegion (some (start, chunk)) dest2
      = .error .RegionOutOfBounds ∧
    destAfter (some (start, chunk)) dest2 = dest2 := by
  have h1 : recordedRegion (freshHandle f) = none := rfl
  have h2 : partialWriteRegion (some (start, chunk)) dest2
      = .error .RegionOutOfBounds := by
    rw [partialWriteRegion]
    exact if_neg (by omega)
  refine ⟨?_, ?_, h2, ?_⟩
  · rw [HDHandle.partial_write, h1]
    rfl
  · rw [destAfter, h1]
    rfl
  · rw [destAfter, h2]

/-- C5 (witness): a fresh handle on the miniature dataset, and a recorded
one-cell region aimed past an empty destination. -/
theorem C5_partial_write_errors_witness :
    ([] : List (Option Nat)).length < 0 + [5].length ∧
    (HDHandle.partial_write (freshHandle demoFile) [none]
        = .error .SubsetUndefined ∧
     destAfter (recordedRegion (freshHandle demoFile)) [none] = [none] ∧
     partialWriteRegion (some (0, [5])) ([] : List (Option Nat))
        = .error .RegionOutOfBounds ∧
     destAfter (some (0, [5])) ([] : List (Option Nat)) = []) :=
  ⟨by decide,
    C5_partial_write_errors demoFile [none] ([] : List (Option Nat)) 0 [5]
      (by decide)⟩

/-- Writing a chunk right after an already-written prefix of a freshly
allocated destination extends the written prefix. -/
theorem writeRegion_splice {α : Type} (pre chunk : List α) (n : Nat) :
    writeRegion (pre.map some ++ List.replicate n (none : Option α))
      pre.length chunk
      = (pre ++ chunk).map some ++ List.replicate (n - chunk.length) none := by
  unfold writeRegion
  have h1 : (pre.map some ++ List.replicate n (none : Option α)).take
      pre.length = pre.map some :=
    List.take_left' (by simp)
  have h2 : (pre.map some ++ List.replicate n (none : Option α)).drop
      (pre.length + chunk.length)
      = List.replicate (n - chunk.length) (none : Option α) := by
    rw [show pre.length + chunk.length
      = (pre.map some).length + chunk.length by simp]
    rw [List.drop_append]
    simp [List.drop_replicate]
  rw [h1, h2, List.map_append]

/-- One loop step of the chunked partial-write pipeline: the state carries
the next region start (the recorded subset advances with each read) and
the destination so far. -/
def pwStep {α : Type} (st : Nat × List (Option α)) (ch : List α) :
    Nat × List (Option α) :=
  (st.1 + ch.length, destAfter (some (st.1, ch)) st.2)

/-- The source file's frequency-axis cells: for each channel, the per-key
column over all integrations. -/
def fileColumns (f : VisFile) : List (List (List Cplx)) :=
  (List.range f.nf).map
    (fun c => f.bls.map (fun k => (List.range f.nt).map (fun t => f.vis k t c)))

/-- Modelled from the spec/notebook: the iterate-then-write loop — the axis
is processed in chunks of `g`, one `partial_write` per yielded chunk into
the destination, each writing exactly the region recorded by that step's
read. -/
def pwFold {α : Type} (g : Nat) (cells : List α) (dest : List (Option α)) :
    List (Option α) :=
  ((chunkList g cells).foldl pwStep (0, dest)).2

/-- Invariant of the loop: chunked writes after an already-written prefix
fill the destination exactly with the source cells. -/
theorem pwFold_go {α : Type} (g : Nat) (hg : 0 < g) (cells pre : List α) :
    ((chunkList g cells).foldl pwStep
      (pre.length, pre.map some ++ List.replicate cells.length none)).2
      = (pre ++ cells).map some := by
  by_cases hc : cells = []
  · subst hc
    simp [chunkList_nil]
  · rw [chunkList_pos hg hc, List.foldl_cons]
    have hstep : pwStep (pre.length,
        pre.map some ++ List.replicate cells.length none) (cells.take g)
        = ((pre ++ cells.take g).length,
          (pre ++ cells.take g).map some
            ++ List.replicate (cells.drop g).length none) := by
      have hok : pre.length + (cells.take g).length
          ≤ (pre.map some
            ++ List.replicate cells.length (none : Option α)).length := by
        have ht := List.length_take g cells
        simp only [List.length_append, List.length_map, List.length_replicate]
        omega
      have e3 : cells.length - (cells.take g).length
          = (cells.drop g).length := by
        rw [List.length_take, List.length_drop]
        omega
      have e1 : pre.length + (cells.take g).length
          = (pre ++ cells.take g).length := by
        simp
      unfold pwStep destAfter partialWriteRegion
      dsimp only
      rw [if_pos hok]
      dsimp only
      rw [writeRegion_splice, e3, e1]
    rw [hstep, pwFold_go g hg (cells.drop g) (pre ++ cells.take g),
      List.append_assoc, List.take_append_drop]
termination_by cells.length
decreasing_by
  have h1 : 0 < cells.length := List.length_pos.mpr hc
  have h2 : (cells.drop g).length = cells.length - g := List.length_drop g cells
  omega

/-- C3: iterating a handle completely over one axis with `partial_write`
called once per yielded chunk into a freshly allocated destination leaves
the destination identical to the file produced by a single full write
(`write_full`) of the same source data. -/
theorem C3_partial_write_loop_refines_write_full (f : VisFile) (g : Nat)
    (hg : 0 < g) :
    pwFold g (fileColumns f) (allocate_output f.nf)
      = write_full (fileColumns f) := by
  have hlen : (fileColumns f).length = f.nf := by
    simp [fileColumns]
  rw [pwFold, allocate_output, write_full, ← hlen]
  simpa using pwFold_go g hg (fileColumns f) []

/-- C3 (witness): the loop with chunk size 2 over the miniature dataset's
seven-channel axis. -/
theorem C3_partial_write_loop_witness :
    0 < 2 ∧
    pwFold 2 (fileColumns demoFile) (allocate_output demoFile.nf)
      = write_full (fileColumns demoFile) :=
  ⟨by decide, C3_partial_write_loop_refines_write_full demoFile 2 (by decide)⟩

/-! ### The calibration handle (`HERACal`) -/

/-- Modelled from the spec: the calibration handle — whole-file gain, flag,
quality and total-quality buffers keyed by antenna-polarization (or by
polarization alone), with no partial-subset state. -/
structure CalHandle where
  gains : List ((Nat × String) × Waterfall)
  calFlags : List ((Nat × String) × List (List Bool))
  quals : List ((Nat × String) × List (List Nat))
  total_qual : List (String × List (List Nat))

/-- Modelled from the spec: no partial-write capability exists for
calibration handles — every caller attempt fails immediately with
`NotSupported`, before touching any state. -/
def CalHandle.partial_write (h : CalHandle) (path : String)
    (dest : List (Option (List (List Cplx)))) :
    Except IOErr (List (Option (List (List Cplx)))) :=
  .error .NotSupported

/-- C8: every attempt to perform a partial write on a calibration handle
fails immediately with `NotSupported`, for every handle state and every
argument. -/
theorem C8_heracal_no_partial_write (h : CalHandle) (path : String)
    (dest : List (Option (List (List Cplx)))) :
    CalHandle.partial_write h path dest = .error .NotSupported := rfl

end HeraCal
